import Mathlib

/-!
Verification model of the bootstrap configuration subsystem
(`crates/utils/src/config/mod.rs`): the macro substitution engine
(`ReplaceMacros::replace_macros`), key partitioning and include merging of
`Config::init`, CLI config-path resolution, and the placeholder `KeyLookup`
implementation for the unit context.

Rust strings are modelled as lists of characters; `BTreeMap`/`AHashMap` are
modelled as association lists with an overwriting insert (claims proved here
are insensitive to map iteration order); `AHashSet` is modelled as a
duplicate-free list.  The fatal `failed` calls (which terminate the process)
are modelled as `Except` errors carrying the data the message would name.
-/

set_option autoImplicit false

abbrev Str := List Char

/-- Model of Rust `str::split_once` for a two-character pattern `[a, b]`:
splits at the leftmost occurrence, returning the text before it and the text
after it (the pattern itself removed), or `none` if the pattern is absent. -/
def splitOnce2 (a b : Char) : Str → Option (Str × Str)
  | [] => none
  | [_] => none
  | c :: d :: cs =>
    if c = a ∧ d = b then some ([], cs)
    else
      match splitOnce2 a b (d :: cs) with
      | some (pre, suf) => some (c :: pre, suf)
      | none => none

/-- Model of Rust `str::split_once` for a single-character pattern. -/
def splitOnceChar (sep : Char) : Str → Option (Str × Str)
  | [] => none
  | c :: cs =>
    if c = sep then some ([], cs)
    else
      match splitOnceChar sep cs with
      | some (pre, suf) => some (c :: pre, suf)
      | none => none

/-- Association-list lookup, first match wins (models map `get`). -/
def lookupKV (k : Str) : List (Str × Str) → Option Str
  | [] => none
  | (k', v) :: rest => if k = k' then some v else lookupKV k rest

/-- Overwriting association-list insert (models `BTreeMap`/`AHashMap`
`insert`: an existing binding for the key is replaced in place). -/
def insertKV (k v : Str) : List (Str × Str) → List (Str × Str)
  | [] => [(k, v)]
  | (k', v') :: rest =>
    if k = k' then (k, v) :: rest else (k', v') :: insertKV k v rest

/-- Model of Rust `str::to_ascii_lowercase` (`Char.toLower` lowercases
exactly the ASCII uppercase letters). -/
def toLowerStr (s : Str) : Str := s.map Char.toLower

/-- The open sentinel `%` followed by `{` (written via its code to keep the
brace out of character position). -/
def openPct : Char := '%'

def openBrace : Char := '\x7b'

def closeBrace : Char := '\x7d'

/-- Model of `self.contains("%\x7b")`: the fast-path emptiness test of
`replace_macros`, expressed through the same leftmost-occurrence search. -/
def containsOpen (s : Str) : Bool := (splitOnce2 openPct openBrace s).isSome

/-- The two fatal macro-substitution failures of `replace_macros`, carrying
the data the `failed` message interpolates. -/
inductive MacroError where
  /-- `Unknown macro {name} for key {key}` -/
  | unknownMacro (name : Str) (key : Str)
  /-- `Unterminated macro name {fragment} for key {key}` -/
  | unterminated (fragment : Str) (key : Str)
deriving DecidableEq

/-- The `loop` body of `ReplaceMacros::replace_macros for String`:
`result` is the output buffer, `value` the not-yet-scanned remainder.
Each iteration splits at the next open sentinel, copies the prefix, splits
the remainder at the closing sentinel, lowercases the delimited name, looks
it up, appends the macro value verbatim and continues after the closing
sentinel.  (The source guards `push_str(suffix)` with a non-emptiness test;
appending the empty prefix is the same result.) -/
def replaceLoop (key : Str) (mtable : List (Str × Str)) (result value : Str) :
    Except MacroError Str :=
  match h1 : splitOnce2 openPct openBrace value with
  | some (pre, afterOpen) =>
    match h2 : splitOnce2 closeBrace openPct afterOpen with
    | some (name, rest) =>
      match lookupKV (toLowerStr name) mtable with
      | some mv => replaceLoop key mtable (result ++ pre ++ mv) rest
      | none => .error (.unknownMacro name key)
    | none => .error (.unterminated value key)
  | none => .ok (result ++ value)
termination_by value.length
decreasing_by
  simp_wf
  have aux : ∀ (x y : Char) (s p q : Str),
      splitOnce2 x y s = some (p, q) → q.length + 2 ≤ s.length := by
    intro x y s
    induction s with
    | nil => intro p q h; simp [splitOnce2] at h
    | cons c cs ih =>
      intro p q h
      cases cs with
      | nil => simp [splitOnce2] at h
      | cons d cs' =>
        simp only [splitOnce2] at h
        split at h
        · rw [Option.some_inj] at h
          cases h
          simp
        · cases hrec : splitOnce2 x y (d :: cs') with
          | none => rw [hrec] at h; exact absurd h (by simp)
          | some pq =>
            obtain ⟨pre2, suf2⟩ := pq
            rw [hrec] at h
            rw [Option.some_inj] at h
            have hq : q = suf2 := (congrArg Prod.snd h).symm
            rw [hq]
            have := ih pre2 suf2 hrec
            simp only [List.length_cons] at this ⊢
            omega
  have b1 := aux openPct openBrace value pre afterOpen h1
  have b2 := aux closeBrace openPct afterOpen name rest h2
  omega

/-- `ReplaceMacros::replace_macros` for `String`: fast path when the value
has no open sentinel, otherwise the scan loop starting from an empty
output buffer. -/
def replaceMacros (key : Str) (mtable : List (Str × Str)) (value : Str) :
    Except MacroError Str :=
  if containsOpen value then replaceLoop key mtable [] value else .ok value

/-- Modelled from the spec (§4.3, refinement side): the spec's description of
when substitution succeeds — scan left to right; at each open sentinel, if no
closing sentinel follows, fail; else if the lowercased delimited name is
absent from the table, fail; else continue after the closing sentinel.  This
is the specification-level failure condition that `replaceMacros` is compared
against; it builds no output. -/
def specScanSucceeds (mtable : List (Str × Str)) (value : Str) : Bool :=
  match h1 : splitOnce2 openPct openBrace value with
  | some (_, afterOpen) =>
    match h2 : splitOnce2 closeBrace openPct afterOpen with
    | some (name, rest) =>
      (lookupKV (toLowerStr name) mtable).isSome && specScanSucceeds mtable rest
    | none => false
  | none => true
termination_by value.length
decreasing_by
  simp_wf
  have aux : ∀ (x y : Char) (s p q : Str),
      splitOnce2 x y s = some (p, q) → q.length + 2 ≤ s.length := by
    intro x y s
    induction s with
    | nil => intro p q h; simp [splitOnce2] at h
    | cons c cs ih =>
      intro p q h
      cases cs with
      | nil => simp [splitOnce2] at h
      | cons d cs' =>
        simp only [splitOnce2] at h
        split at h
        · rw [Option.some_inj] at h
          cases h
          simp
        · cases hrec : splitOnce2 x y (d :: cs') with
          | none => rw [hrec] at h; exact absurd h (by simp)
          | some pq =>
            obtain ⟨pre2, suf2⟩ := pq
            rw [hrec] at h
            rw [Option.some_inj] at h
            have hq : q = suf2 := (congrArg Prod.snd h).symm
            rw [hq]
            have := ih pre2 suf2 hrec
            simp only [List.length_cons] at this ⊢
            omega
  have b1 := aux openPct openBrace value _ afterOpen h1
  have b2 := aux closeBrace openPct afterOpen name rest h2
  omega

/-- True exactly on `Except.ok` results. -/
def exceptOk {ε α : Type} : Except ε α → Bool
  | .ok _ => true
  | .error _ => false

/-- Model of Rust `str::starts_with` for string patterns. -/
def startsWithStr : Str → Str → Bool
  | [], _ => true
  | _ :: _, [] => false
  | p :: ps, c :: cs => p = c && startsWithStr ps cs

/-- Model of Rust `str::strip_prefix`: the remainder after the prefix when
it matches, else `none`. -/
def stripPref : Str → Str → Option Str
  | [], s => some s
  | _ :: _, [] => none
  | p :: ps, c :: cs => if p = c then stripPref ps cs else none

/-- The literal `macros.` key prefix. -/
def macrosPref : Str := ['m', 'a', 'c', 'r', 'o', 's', '.']

/-- The literal `include.files.` key prefix. -/
def includeFilesPref : Str :=
  ['i', 'n', 'c', 'l', 'u', 'd', 'e', '.', 'f', 'i', 'l', 'e', 's', '.']

/-- The literal `include.files` key used for macro-substitution errors on
include paths. -/
def includeFilesKey : Str :=
  ['i', 'n', 'c', 'l', 'u', 'd', 'e', '.', 'f', 'i', 'l', 'e', 's']

/-- Set insert (models `AHashSet::insert`): no duplicate is added.  The hash
set's iteration order is incidental in the source; the model keeps
first-insertion order. -/
def insertSet (v : Str) (s : List Str) : List Str :=
  if v ∈ s then s else s ++ [v]

/-- The three-way partition state of `Config::init`'s first loop. -/
structure Partitioned where
  keys : List (Str × Str)
  includes : List Str
  macros : List (Str × Str)
deriving DecidableEq

/-- One step of the partition loop of `Config::init`: a `macros.`-prefixed
key defines a macro under its lowercased stripped name; an
`include.files.`-prefixed key contributes its value to the include set; any
other entry stays a plain key. -/
def partitionStep (acc : Partitioned) (kv : Str × Str) : Partitioned :=
  match stripPref macrosPref kv.1 with
  | some name => { acc with macros := insertKV (toLowerStr name) kv.2 acc.macros }
  | none =>
    if startsWithStr includeFilesPref kv.1 then
      { acc with includes := insertSet kv.2 acc.includes }
    else
      { acc with keys := insertKV kv.1 kv.2 acc.keys }

/-- The partition loop of `Config::init` over the parsed main-file map. -/
def partitionConfig (entries : List (Str × Str)) : Partitioned :=
  entries.foldl partitionStep { keys := [], includes := [], macros := [] }

/-- Modelled from the spec (§1, §4.2): the external text parser `parse` turns
file text into a flat key→value map merged into `config.keys`; a file is
therefore represented by its parsed entry list (in file order) and parsing
into an existing map is an overwriting insert of each entry in order. -/
def parseInto (base : List (Str × Str)) (entries : List (Str × Str)) :
    List (Str × Str) :=
  entries.foldl (fun acc kv => insertKV kv.1 kv.2 acc) base

/-- The fatal conditions of `Config::init` after the main file is parsed,
modelled as error values (spec §7: all are report-and-terminate). -/
inductive InitError where
  /-- a `replace_macros` failure -/
  | macroFailed (e : MacroError)
  /-- `Could not read included configuration file {path}` (the model treats
  a path outside the file-system map as unreadable; parse errors of included
  files are outside the model since files are represented pre-parsed) -/
  | readFailed (path : Str)
deriving DecidableEq

/-- One iteration of `Config::init`'s include loop: macro-substitute the
path under the key `include.files`, read the referenced file and merge its
parsed entries into the working key set. -/
def includeOne (fs : Str → Option (List (Str × Str)))
    (mtable : List (Str × Str)) (acc : List (Str × Str)) (path : Str) :
    Except InitError (List (Str × Str)) :=
  match replaceMacros includeFilesKey mtable path with
  | .error e => .error (.macroFailed e)
  | .ok rpath =>
    match fs rpath with
    | none => .error (.readFailed rpath)
    | some entries => .ok (parseInto acc entries)

/-- The final loop of `Config::init`: macro-substitute every value in the
working key set (each under its own key), keeping keys and order. -/
def substituteAll (mtable : List (Str × Str)) :
    List (Str × Str) → Except MacroError (List (Str × Str))
  | [] => .ok []
  | (k, v) :: rest =>
    match replaceMacros k mtable v with
    | .error e => .error e
    | .ok v' =>
      match substituteAll mtable rest with
      | .error e => .error e
      | .ok rest' => .ok ((k, v') :: rest')

/-- The final flat configuration map (`Config { keys }`). -/
structure Config where
  keys : List (Str × Str)
deriving DecidableEq

/-- The partition of the parsed main file inside `Config::init`. -/
def initPartition (mainEntries : List (Str × Str)) : Partitioned :=
  partitionConfig (parseInto [] mainEntries)

/-- The working key set of `Config::init` after the include loop: the main
file's plain keys with every include's entries merged over them. -/
def initMerged (mainEntries : List (Str × Str))
    (fs : Str → Option (List (Str × Str))) :
    Except InitError (List (Str × Str)) :=
  (initPartition mainEntries).includes.foldlM
    (includeOne fs (initPartition mainEntries).macros)
    (initPartition mainEntries).keys

/-- `Config::init`, from the parsed main file and a file system mapping
paths to parsed included files: partition, merge includes, then
macro-substitute every remaining value.  CLI resolution and the reading of
the main file itself are modelled separately (`resolveConfigPath`). -/
def Config.init (mainEntries : List (Str × Str))
    (fs : Str → Option (List (Str × Str))) : Except InitError Config :=
  match initMerged mainEntries fs with
  | .error e => .error e
  | .ok merged =>
    match substituteAll (initPartition mainEntries).macros merged with
    | .error e => .error (.macroFailed e)
    | .ok finalKeys => .ok ⟨finalKeys⟩

/-- Model of Rust `str::trim` (whitespace stripped from both ends). -/
def trimStr (s : Str) : Str :=
  ((s.dropWhile Char.isWhitespace).reverse.dropWhile Char.isWhitespace).reverse

/-- The literal `--config` flag. -/
def configFlag : Str := ['-', '-', 'c', 'o', 'n', 'f', 'i', 'g']

/-- Outcome of the CLI argument scan of `Config::init`.  The two failure
variants model the fatal `failed` calls (modelled from the spec: `failed`
reports and terminates the process): `invalidArg` carries the text the
`Invalid command line argument` message names, `missingParam` is the
`Missing parameter --config=<path-to-config>` failure. -/
inductive CliResult where
  | path (p : Str)
  | invalidArg (a : Str)
  | missingParam
deriving DecidableEq

/-- The argument scan of `Config::init` (arguments after the program name):
an argument containing `=` is accepted iff its key part starts with
`--config` (value trimmed); otherwise, if a standalone `--config`-prefixed
token was already seen, the argument itself becomes the path; otherwise a
standalone `--config`-prefixed token arms the next-token case; anything else
is an invalid argument.  An exhausted list with no path is the
missing-parameter failure. -/
def scanArgs : Bool → List Str → CliResult
  | _, [] => .missingParam
  | foundParam, arg :: rest =>
    match splitOnceChar '=' arg with
    | some (k, v) =>
      if startsWithStr configFlag k then .path (trimStr v) else .invalidArg k
    | none =>
      if foundParam then .path arg
      else if startsWithStr configFlag arg then scanArgs true rest
      else .invalidArg arg

/-- CLI config-path resolution of `Config::init` when no path was
pre-supplied. -/
def resolveConfigPath (args : List Str) : CliResult := scanArgs false args

/-- Model of `std::net::IpAddr`. -/
inductive IpAddr where
  | v4 (a b c d : Nat)
  | v6 (s0 s1 s2 s3 s4 s5 s6 s7 : Nat)
deriving DecidableEq

/-- The `KeyLookup` trait: a context resolves a typed key to a string, an
integer, or an IP address. -/
structure KeyLookup (Ctx : Type) (Key : Type) where
  key : Ctx → Key → Str
  key_as_int : Ctx → Key → Int
  key_as_ip : Ctx → Key → IpAddr

/-- The placeholder `impl KeyLookup for ()` with `Key = String`: every
accessor is constant. -/
def unitKeyLookup : KeyLookup Unit Str where
  key := fun _ _ => []
  key_as_int := fun _ _ => 0
  key_as_ip := fun _ _ => .v4 0 0 0 0

theorem splitOnce2_shrink (x y : Char) : ∀ (s p q : Str),
    splitOnce2 x y s = some (p, q) → q.length + 2 ≤ s.length := by
  intro s
  induction s with
  | nil => intro p q h; simp [splitOnce2] at h
  | cons c cs ih =>
    intro p q h
    cases cs with
    | nil => simp [splitOnce2] at h
    | cons d cs' =>
      simp only [splitOnce2] at h
      split at h
      · rw [Option.some_inj] at h
        cases h
        simp
      · cases hrec : splitOnce2 x y (d :: cs') with
        | none => rw [hrec] at h; exact absurd h (by simp)
        | some pq =>
          obtain ⟨pre2, suf2⟩ := pq
          rw [hrec] at h
          rw [Option.some_inj] at h
          have hq : q = suf2 := (congrArg Prod.snd h).symm
          rw [hq]
          have := ih pre2 suf2 hrec
          simp only [List.length_cons] at this ⊢
          omega

theorem replaceLoop_done (key : Str) (mtable : List (Str × Str))
    (result value : Str) (h : splitOnce2 openPct openBrace value = none) :
    replaceLoop key mtable result value = .ok (result ++ value) := by
  rw [replaceLoop.eq_def]
  split
  · rename_i pre afterOpen heq
    rw [h] at heq
    simp at heq
  · rfl

theorem replaceLoop_unterm (key : Str) (mtable : List (Str × Str))
    (result value pre afterOpen : Str)
    (h1 : splitOnce2 openPct openBrace value = some (pre, afterOpen))
    (h2 : splitOnce2 closeBrace openPct afterOpen = none) :
    replaceLoop key mtable result value = .error (.unterminated value key) := by
  rw [replaceLoop.eq_def]
  split
  · rename_i pre' afterOpen' heq
    rw [h1] at heq
    simp only [Option.some_inj, Prod.mk.injEq] at heq
    obtain ⟨hp, ha⟩ := heq
    subst hp
    subst ha
    split
    · rename_i name' rest' heq2
      rw [h2] at heq2
      simp at heq2
    · rfl
  · rename_i heq
    rw [h1] at heq
    simp at heq

theorem replaceLoop_unknown (key : Str) (mtable : List (Str × Str))
    (result value pre afterOpen name rest : Str)
    (h1 : splitOnce2 openPct openBrace value = some (pre, afterOpen))
    (h2 : splitOnce2 closeBrace openPct afterOpen = some (name, rest))
    (h3 : lookupKV (toLowerStr name) mtable = none) :
    replaceLoop key mtable result value = .error (.unknownMacro name key) := by
  rw [replaceLoop.eq_def]
  split
  · rename_i pre' afterOpen' heq
    rw [h1] at heq
    simp only [Option.some_inj, Prod.mk.injEq] at heq
    obtain ⟨hp, ha⟩ := heq
    subst hp
    subst ha
    split
    · rename_i name' rest' heq2
      rw [h2] at heq2
      simp only [Option.some_inj, Prod.mk.injEq] at heq2
      obtain ⟨hn, hr⟩ := heq2
      subst hn
      subst hr
      rw [h3]
    · rename_i heq2
      rw [h2] at heq2
      simp at heq2
  · rename_i heq
    rw [h1] at heq
    simp at heq

theorem replaceLoop_step (key : Str) (mtable : List (Str × Str))
    (result value pre afterOpen name rest mv : Str)
    (h1 : splitOnce2 openPct openBrace value = some (pre, afterOpen))
    (h2 : splitOnce2 closeBrace openPct afterOpen = some (name, rest))
    (h3 : lookupKV (toLowerStr name) mtable = some mv) :
    replaceLoop key mtable result value
      = replaceLoop key mtable (result ++ pre ++ mv) rest := by
  rw [replaceLoop.eq_def]
  split
  · rename_i pre' afterOpen' heq
    rw [h1] at heq
    simp only [Option.some_inj, Prod.mk.injEq] at heq
    obtain ⟨hp, ha⟩ := heq
    subst hp
    subst ha
    split
    · rename_i name' rest' heq2
      rw [h2] at heq2
      simp only [Option.some_inj, Prod.mk.injEq] at heq2
      obtain ⟨hn, hr⟩ := heq2
      subst hn
      subst hr
      rw [h3]
    · rename_i heq2
      rw [h2] at heq2
      simp at heq2
  · rename_i heq
    rw [h1] at heq
    simp at heq

theorem specScan_done (mtable : List (Str × Str)) (value : Str)
    (h : splitOnce2 openPct openBrace value = none) :
    specScanSucceeds mtable value = true := by
  rw [specScanSucceeds.eq_def]
  split
  · rename_i pre afterOpen heq
    rw [h] at heq
    simp at heq
  · rfl

theorem specScan_unterm (mtable : List (Str × Str))
    (value pre afterOpen : Str)
    (h1 : splitOnce2 openPct openBrace value = some (pre, afterOpen))
    (h2 : splitOnce2 closeBrace openPct afterOpen = none) :
    specScanSucceeds mtable value = false := by
  rw [specScanSucceeds.eq_def]
  split
  · rename_i pre' afterOpen' heq
    rw [h1] at heq
    simp only [Option.some_inj, Prod.mk.injEq] at heq
    obtain ⟨hp, ha⟩ := heq
    subst ha
    split
    · rename_i name' rest' heq2
      rw [h2] at heq2
      simp at heq2
    · rfl
  · rename_i heq
    rw [h1] at heq
    simp at heq

theorem specScan_step (mtable : List (Str × Str))
    (value pre afterOpen name rest : Str)
    (h1 : splitOnce2 openPct openBrace value = some (pre, afterOpen))
    (h2 : splitOnce2 closeBrace openPct afterOpen = some (name, rest)) :
    specScanSucceeds mtable value
      = ((lookupKV (toLowerStr name) mtable).isSome
          && specScanSucceeds mtable rest) := by
  rw [specScanSucceeds.eq_def]
  split
  · rename_i pre' afterOpen' heq
    rw [h1] at heq
    simp only [Option.some_inj, Prod.mk.injEq] at heq
    obtain ⟨hp, ha⟩ := heq
    subst ha
    split
    · rename_i name' rest' heq2
      rw [h2] at heq2
      simp only [Option.some_inj, Prod.mk.injEq] at heq2
      obtain ⟨hn, hr⟩ := heq2
      subst hn
      subst hr
      rfl
    · rename_i heq2
      rw [h2] at heq2
      simp at heq2
  · rename_i heq
    rw [h1] at heq
    simp at heq

theorem exceptOk_iff {ε α : Type} (e : Except ε α) :
    exceptOk e = true ↔ ∃ a, e = .ok a := by
  cases e <;> simp [exceptOk]

theorem replaceLoop_ok_eq_scan (key : Str) (mtable : List (Str × Str)) :
    ∀ (n : Nat) (value : Str), value.length ≤ n → ∀ (result : Str),
      exceptOk (replaceLoop key mtable result value)
        = specScanSucceeds mtable value := by
  intro n
  induction n with
  | zero =>
    intro value hlen result
    have hv : value = [] := List.length_eq_zero.mp (Nat.le_zero.mp hlen)
    subst hv
    rw [replaceLoop_done key mtable result [] rfl, specScan_done mtable [] rfl]
    rfl
  | succ n ih =>
    intro value hlen result
    cases hs1 : splitOnce2 openPct openBrace value with
    | none =>
      rw [replaceLoop_done key mtable result value hs1,
          specScan_done mtable value hs1]
      rfl
    | some pa =>
      obtain ⟨pre, afterOpen⟩ := pa
      cases hs2 : splitOnce2 closeBrace openPct afterOpen with
      | none =>
        rw [replaceLoop_unterm key mtable result value pre afterOpen hs1 hs2,
            specScan_unterm mtable value pre afterOpen hs1 hs2]
        rfl
      | some nr =>
        obtain ⟨name, rest⟩ := nr
        rw [specScan_step mtable value pre afterOpen name rest hs1 hs2]
        cases hlook : lookupKV (toLowerStr name) mtable with
        | none =>
          rw [replaceLoop_unknown key mtable result value pre afterOpen
                name rest hs1 hs2 hlook]
          simp [exceptOk]
        | some mv =>
          rw [replaceLoop_step key mtable result value pre afterOpen
                name rest mv hs1 hs2 hlook]
          have hlen1 := splitOnce2_shrink openPct openBrace value pre afterOpen hs1
          have hlen2 :=
            splitOnce2_shrink closeBrace openPct afterOpen name rest hs2
          have hrest : rest.length ≤ n := by omega
          rw [ih rest hrest (result ++ pre ++ mv)]
          simp

theorem replaceLoop_unknown_inv (key : Str) (mtable : List (Str × Str)) :
    ∀ (n : Nat) (value : Str), value.length ≤ n → ∀ (result name k : Str),
      replaceLoop key mtable result value = .error (.unknownMacro name k) →
      k = key ∧ lookupKV (toLowerStr name) mtable = none := by
  intro n
  induction n with
  | zero =>
    intro value hlen result name k herr
    have hv : value = [] := List.length_eq_zero.mp (Nat.le_zero.mp hlen)
    subst hv
    rw [replaceLoop_done key mtable result [] rfl] at herr
    simp at herr
  | succ n ih =>
    intro value hlen result name k herr
    cases hs1 : splitOnce2 openPct openBrace value with
    | none =>
      rw [replaceLoop_done key mtable result value hs1] at herr
      simp at herr
    | some pa =>
      obtain ⟨pre, afterOpen⟩ := pa
      cases hs2 : splitOnce2 closeBrace openPct afterOpen with
      | none =>
        rw [replaceLoop_unterm key mtable result value pre afterOpen hs1 hs2]
          at herr
        simp at herr
      | some nr =>
        obtain ⟨name', rest⟩ := nr
        cases hlook : lookupKV (toLowerStr name') mtable with
        | none =>
          rw [replaceLoop_unknown key mtable result value pre afterOpen
                name' rest hs1 hs2 hlook] at herr
          simp only [Except.error.injEq, MacroError.unknownMacro.injEq] at herr
          obtain ⟨hn, hk⟩ := herr
          subst hn
          exact ⟨hk.symm, hlook⟩
        | some mv =>
          rw [replaceLoop_step key mtable result value pre afterOpen
                name' rest mv hs1 hs2 hlook] at herr
          have hlen1 := splitOnce2_shrink openPct openBrace value pre afterOpen hs1
          have hlen2 :=
            splitOnce2_shrink closeBrace openPct afterOpen name' rest hs2
          have hrest : rest.length ≤ n := by omega
          exact ih rest hrest (result ++ pre ++ mv) name k herr

theorem replaceLoop_unterm_inv (key : Str) (mtable : List (Str × Str)) :
    ∀ (n : Nat) (value : Str), value.length ≤ n → ∀ (result frag k : Str),
      replaceLoop key mtable result value = .error (.unterminated frag k) →
      k = key ∧ ∃ pre suf,
        splitOnce2 openPct openBrace frag = some (pre, suf) ∧
          splitOnce2 closeBrace openPct suf = none := by
  intro n
  induction n with
  | zero =>
    intro value hlen result frag k herr
    have hv : value = [] := List.length_eq_zero.mp (Nat.le_zero.mp hlen)
    subst hv
    rw [replaceLoop_done key mtable result [] rfl] at herr
    simp at herr
  | succ n ih =>
    intro value hlen result frag k herr
    cases hs1 : splitOnce2 openPct openBrace value with
    | none =>
      rw [replaceLoop_done key mtable result value hs1] at herr
      simp at herr
    | some pa =>
      obtain ⟨pre, afterOpen⟩ := pa
      cases hs2 : splitOnce2 closeBrace openPct afterOpen with
      | none =>
        rw [replaceLoop_unterm key mtable result value pre afterOpen hs1 hs2]
          at herr
        simp only [Except.error.injEq, MacroError.unterminated.injEq] at herr
        obtain ⟨hfr, hk⟩ := herr
        subst hfr
        exact ⟨hk.symm, pre, afterOpen, hs1, hs2⟩
      | some nr =>
        obtain ⟨name', rest⟩ := nr
        cases hlook : lookupKV (toLowerStr name') mtable with
        | none =>
          rw [replaceLoop_unknown key mtable result value pre afterOpen
                name' rest hs1 hs2 hlook] at herr
          simp at herr
        | some mv =>
          rw [replaceLoop_step key mtable result value pre afterOpen
                name' rest mv hs1 hs2 hlook] at herr
          have hlen1 := splitOnce2_shrink openPct openBrace value pre afterOpen hs1
          have hlen2 :=
            splitOnce2_shrink closeBrace openPct afterOpen name' rest hs2
          have hrest : rest.length ≤ n := by omega
          exact ih rest hrest (result ++ pre ++ mv) frag k herr

theorem containsOpen_false_eq_none (value : Str) (h : containsOpen value = false) :
    splitOnce2 openPct openBrace value = none := by
  unfold containsOpen at h
  cases hs : splitOnce2 openPct openBrace value with
  | none => rfl
  | some pa => rw [hs] at h; simp at h

theorem replaceMacros_ok_eq_scan (key : Str) (mtable : List (Str × Str))
    (value : Str) :
    exceptOk (replaceMacros key mtable value) = specScanSucceeds mtable value := by
  unfold replaceMacros
  cases hc : containsOpen value with
  | false =>
    rw [if_neg (by simp [hc])]
    rw [specScan_done mtable value (containsOpen_false_eq_none value hc)]
    rfl
  | true =>
    rw [if_pos rfl]
    exact replaceLoop_ok_eq_scan key mtable value.length value le_rfl []

theorem replaceMacros_unknown_inv (key : Str) (mtable : List (Str × Str))
    (value name k : Str)
    (h : replaceMacros key mtable value = .error (.unknownMacro name k)) :
    k = key ∧ lookupKV (toLowerStr name) mtable = none := by
  unfold replaceMacros at h
  split at h
  · exact replaceLoop_unknown_inv key mtable value.length value le_rfl [] name k h
  · simp at h

theorem replaceMacros_unterm_inv (key : Str) (mtable : List (Str × Str))
    (value frag k : Str)
    (h : replaceMacros key mtable value = .error (.unterminated frag k)) :
    k = key ∧ ∃ pre suf,
      splitOnce2 openPct openBrace frag = some (pre, suf) ∧
        splitOnce2 closeBrace openPct suf = none := by
  unfold replaceMacros at h
  split at h
  · exact replaceLoop_unterm_inv key mtable value.length value le_rfl [] frag k h
  · simp at h

/-- C1: for every key, macro table and value, `replace_macros` fails exactly
when the left-to-right scan meets an open sentinel with no closing sentinel
(the error then names the offending fragment — which contains such an open
sentinel — and the owning key) or a delimited name whose ASCII-lowercased
form is absent from the table (the error then names that macro name and the
owning key); when neither condition arises along the scan, substitution
succeeds. -/
theorem replaceMacros_fails_iff_scan_fails :
    ∀ (key : Str) (mtable : List (Str × Str)) (value : Str),
      ((∃ out, replaceMacros key mtable value = .ok out)
          ↔ specScanSucceeds mtable value = true)
      ∧ (∀ name k,
          replaceMacros key mtable value = .error (.unknownMacro name k) →
          k = key ∧ lookupKV (toLowerStr name) mtable = none)
      ∧ (∀ frag k,
          replaceMacros key mtable value = .error (.unterminated frag k) →
          k = key ∧ ∃ pre suf,
            splitOnce2 openPct openBrace frag = some (pre, suf) ∧
              splitOnce2 closeBrace openPct suf = none) := by
  intro key mtable value
  refine ⟨?_, ?_, ?_⟩
  · rw [← exceptOk_iff, replaceMacros_ok_eq_scan]
  · intro name k h
    exact replaceMacros_unknown_inv key mtable value name k h
  · intro frag k h
    exact replaceMacros_unterm_inv key mtable value frag k h

theorem replaceMacros_fails_iff_scan_fails_witness :
    (['k'] : Str) = ['k'] ∧ lookupKV (toLowerStr ['x']) [] = none := by
  have herr : replaceMacros ['k'] [] ['%', '\x7b', 'x', '\x7d', '%']
      = .error (.unknownMacro ['x'] ['k']) := by
    unfold replaceMacros
    rw [if_pos (by decide : containsOpen ['%', '\x7b', 'x', '\x7d', '%'] = true)]
    exact replaceLoop_unknown ['k'] [] [] ['%', '\x7b', 'x', '\x7d', '%']
      [] ['x', '\x7d', '%'] ['x'] [] rfl rfl rfl
  exact (replaceMacros_fails_iff_scan_fails ['k'] []
    ['%', '\x7b', 'x', '\x7d', '%']).2.1 ['x'] ['k'] herr

/-- C2: macro expansion is single-pass and non-recursive — when a reference
resolves, the macro's replacement text is appended verbatim to the output
buffer and scanning continues with the remainder of the original value only,
never re-scanning the inserted text; concretely, with macros
`foo = %\x7bbar\x7d%` (and `bar = baz` also defined), substituting the value
`%\x7bfoo\x7d%` yields the literal text `%\x7bbar\x7d%`. -/
theorem replaceMacros_single_pass :
    (∀ (key : Str) (mtable : List (Str × Str))
        (result value pre afterOpen name rest mv : Str),
      splitOnce2 openPct openBrace value = some (pre, afterOpen) →
      splitOnce2 closeBrace openPct afterOpen = some (name, rest) →
      lookupKV (toLowerStr name) mtable = some mv →
      replaceLoop key mtable result value
        = replaceLoop key mtable (result ++ pre ++ mv) rest)
    ∧ replaceMacros ['k']
        [(['f', 'o', 'o'], ['%', '\x7b', 'b', 'a', 'r', '\x7d', '%']),
         (['b', 'a', 'r'], ['b', 'a', 'z'])]
        ['%', '\x7b', 'f', 'o', 'o', '\x7d', '%']
        = .ok ['%', '\x7b', 'b', 'a', 'r', '\x7d', '%'] := by
  constructor
  · intro key mtable result value pre afterOpen name rest mv h1 h2 h3
    exact replaceLoop_step key mtable result value pre afterOpen name rest mv
      h1 h2 h3
  · unfold replaceMacros
    rw [if_pos (by decide :
      containsOpen ['%', '\x7b', 'f', 'o', 'o', '\x7d', '%'] = true)]
    rw [replaceLoop_step _ _ [] ['%', '\x7b', 'f', 'o', 'o', '\x7d', '%']
      [] ['f', 'o', 'o', '\x7d', '%'] ['f', 'o', 'o'] []
      ['%', '\x7b', 'b', 'a', 'r', '\x7d', '%']
      (by decide) (by decide) (by decide)]
    rw [replaceLoop_done _ _ _ [] (by decide)]
    simp

theorem replaceMacros_single_pass_witness :
    replaceLoop ['k'] [(['a'], ['z'])] [] ['%', '\x7b', 'a', '\x7d', '%']
      = replaceLoop ['k'] [(['a'], ['z'])] ([] ++ [] ++ ['z']) [] :=
  replaceMacros_single_pass.1 ['k'] [(['a'], ['z'])] []
    ['%', '\x7b', 'a', '\x7d', '%'] [] ['a', '\x7d', '%'] ['a'] [] ['z']
    rfl rfl rfl

/-- C5: substitution on any value containing no open sentinel leaves the
value exactly identical, for every key and macro table. -/
theorem replaceMacros_noop_without_sentinel :
    ∀ (key : Str) (mtable : List (Str × Str)) (value : Str),
      containsOpen value = false →
      replaceMacros key mtable value = .ok value := by
  intro key mtable value h
  unfold replaceMacros
  rw [if_neg (by simp [h])]

theorem replaceMacros_noop_without_sentinel_witness :
    replaceMacros ['k'] [(['a'], ['z'])] ['a', 'b', '%'] = .ok ['a', 'b', '%'] :=
  replaceMacros_noop_without_sentinel ['k'] [(['a'], ['z'])] ['a', 'b', '%'] rfl

theorem splitOnceChar_not_mem (sep : Char) : ∀ (s : Str), sep ∉ s →
    splitOnceChar sep s = none := by
  intro s
  induction s with
  | nil => intro _; rfl
  | cons c cs ih =>
    intro h
    simp only [List.mem_cons, not_or] at h
    obtain ⟨h1, h2⟩ := h
    simp only [splitOnceChar]
    rw [if_neg (fun hc => h1 hc.symm), ih h2]

theorem splitOnceChar_append (sep : Char) : ∀ (k v : Str), sep ∉ k →
    splitOnceChar sep (k ++ sep :: v) = some (k, v) := by
  intro k
  induction k with
  | nil => intro v _; simp [splitOnceChar]
  | cons c cs ih =>
    intro v h
    simp only [List.mem_cons, not_or] at h
    obtain ⟨h1, h2⟩ := h
    simp only [List.cons_append, splitOnceChar, List.append_eq]
    rw [if_neg (fun hc => h1 hc.symm), ih v h2]

/-- C6: CLI path resolution resolves both the equals form
`--config=/etc/x.conf` (value trimmed) and the two-token form
`--config /etc/x.conf` to `/etc/x.conf`, the first equals-form match wins,
and an empty argument list yields the fatal missing-required-parameter
outcome. -/
theorem cli_resolution_cases :
    resolveConfigPath
        [configFlag ++ ('=' :: ['/', 'e', 't', 'c', '/', 'x', '.', 'c', 'o', 'n', 'f'])]
      = .path ['/', 'e', 't', 'c', '/', 'x', '.', 'c', 'o', 'n', 'f']
    ∧ resolveConfigPath
        [configFlag, ['/', 'e', 't', 'c', '/', 'x', '.', 'c', 'o', 'n', 'f']]
      = .path ['/', 'e', 't', 'c', '/', 'x', '.', 'c', 'o', 'n', 'f']
    ∧ resolveConfigPath [] = .missingParam
    ∧ resolveConfigPath
        [configFlag ++ ('=' :: ['p', '1']), configFlag ++ ('=' :: ['p', '2'])]
      = .path ['p', '1']
    ∧ resolveConfigPath [configFlag ++ ('=' :: [' ', 'p', ' '])] = .path ['p'] := by
  exact ⟨by decide, by decide, rfl, by decide, by decide⟩

/-- C9: the placeholder `KeyLookup` implementation for the unit context is
total and constant — every key resolves to the empty string, the integer
zero, and the unspecified IPv4 address `0.0.0.0`. -/
theorem unitKeyLookup_constant :
    ∀ (k : Str), unitKeyLookup.key () k = []
      ∧ unitKeyLookup.key_as_int () k = 0
      ∧ unitKeyLookup.key_as_ip () k = .v4 0 0 0 0 := by
  intro k
  exact ⟨rfl, rfl, rfl⟩

/-- C10: the argument scan matches the `--config` flag by prefix, not exact
name — any leading argument `key=value` whose key (the text before its first
`=`) merely begins with `--config` is accepted, yielding the trimmed value as
the path; and any standalone leading token beginning with `--config` causes
the next (equals-free) token to be taken as the path. -/
theorem cli_prefix_matching :
    (∀ (k v : Str) (rest : List Str),
      startsWithStr configFlag k = true → '=' ∉ k →
      resolveConfigPath ((k ++ '=' :: v) :: rest) = .path (trimStr v))
    ∧ (∀ (t p : Str) (rest : List Str),
      startsWithStr configFlag t = true → '=' ∉ t → '=' ∉ p →
      resolveConfigPath (t :: p :: rest) = .path p) := by
  constructor
  · intro k v rest hpref hmem
    simp only [resolveConfigPath, scanArgs]
    rw [splitOnceChar_append '=' k v hmem]
    simp only [hpref, if_true]
  · intro t p rest hpref ht hp
    simp only [resolveConfigPath, scanArgs]
    rw [splitOnceChar_not_mem '=' t ht]
    simp only [Bool.false_eq_true, if_false, hpref, if_true]
    rw [splitOnceChar_not_mem '=' p hp]

theorem cli_prefix_matching_witness :
    resolveConfigPath
        [['-', '-', 'c', 'o', 'n', 'f', 'i', 'g', 'u', 'r', 'a', 't', 'i', 'o', 'n']
          ++ '=' :: ['x']]
      = .path (trimStr ['x'])
    ∧ resolveConfigPath
        [['-', '-', 'c', 'o', 'n', 'f', 'i', 'g', 'f', 'o', 'o'], ['p']]
      = .path ['p'] :=
  ⟨cli_prefix_matching.1
      ['-', '-', 'c', 'o', 'n', 'f', 'i', 'g', 'u', 'r', 'a', 't', 'i', 'o', 'n']
      ['x'] [] (by decide) (by decide),
    cli_prefix_matching.2
      ['-', '-', 'c', 'o', 'n', 'f', 'i', 'g', 'f', 'o', 'o']
      ['p'] [] (by decide) (by decide) (by decide)⟩

theorem mem_insertKV : ∀ (l : List (Str × Str)) (k v : Str) (x : Str × Str),
    x ∈ insertKV k v l → x = (k, v) ∨ x ∈ l := by
  intro l
  induction l with
  | nil =>
    intro k v x h
    simp only [insertKV] at h
    rw [List.mem_singleton] at h
    exact Or.inl h
  | cons e rest ih =>
    intro k v x h
    obtain ⟨k', v'⟩ := e
    simp only [insertKV] at h
    split at h
    · rcases List.mem_cons.mp h with h1 | h2
      · exact Or.inl h1
      · exact Or.inr (List.mem_cons_of_mem _ h2)
    · rcases List.mem_cons.mp h with h1 | h2
      · exact Or.inr (by rw [h1]; exact List.mem_cons_self _ _)
      · rcases ih k v x h2 with ha | hb
        · exact Or.inl ha
        · exact Or.inr (List.mem_cons_of_mem _ hb)

theorem mem_parseInto : ∀ (es base : List (Str × Str)) (x : Str × Str),
    x ∈ parseInto base es → x ∈ base ∨ x ∈ es := by
  intro es
  induction es with
  | nil => intro base x h; exact Or.inl h
  | cons e rest ih =>
    intro base x h
    have h' : x ∈ parseInto (insertKV e.1 e.2 base) rest := h
    rcases ih (insertKV e.1 e.2 base) x h' with h1 | h2
    · rcases mem_insertKV base e.1 e.2 x h1 with ha | hb
      · exact Or.inr (by rw [ha]; exact List.mem_cons_self _ _)
      · exact Or.inl hb
    · exact Or.inr (List.mem_cons_of_mem _ h2)

theorem lookupKV_insertKV : ∀ (l : List (Str × Str)) (k k0 v0 : Str),
    lookupKV k (insertKV k0 v0 l)
      = if k = k0 then some v0 else lookupKV k l := by
  intro l
  induction l with
  | nil =>
    intro k k0 v0
    simp [insertKV, lookupKV]
  | cons e rest ih =>
    intro k k0 v0
    obtain ⟨k', v'⟩ := e
    simp only [insertKV]
    split
    · rename_i hkk
      subst hkk
      by_cases hk : k = k0
      · simp [lookupKV, hk]
      · simp [lookupKV, hk]
    · rename_i hkk
      by_cases hk' : k = k'
      · have hk0 : ¬ k = k0 := fun h0 => hkk (h0.symm.trans hk')
        simp only [lookupKV, if_pos hk', if_neg hk0]
      · by_cases hk0 : k = k0
        · simp only [lookupKV, if_neg hk', ih, if_pos hk0]
        · simp only [lookupKV, if_neg hk', ih, if_neg hk0]

theorem lookupKV_parseInto : ∀ (es base : List (Str × Str)) (k : Str),
    lookupKV k (parseInto base es)
      = match lookupKV k (parseInto [] es) with
        | some v => some v
        | none => lookupKV k base := by
  intro es
  induction es with
  | nil => intro base k; rfl
  | cons e rest ih =>
    intro e_base k
    have l1 : parseInto e_base (e :: rest)
        = parseInto (insertKV e.1 e.2 e_base) rest := rfl
    have l2 : parseInto [] (e :: rest)
        = parseInto (insertKV e.1 e.2 []) rest := rfl
    rw [l1, l2, ih (insertKV e.1 e.2 e_base) k, ih (insertKV e.1 e.2 []) k]
    cases hr : lookupKV k (parseInto [] rest) with
    | some v => rfl
    | none =>
      rw [lookupKV_insertKV e_base k e.1 e.2, lookupKV_insertKV [] k e.1 e.2]
      by_cases hk : k = e.1
      · rw [if_pos hk, if_pos hk]
      · rw [if_neg hk, if_neg hk]
        rfl

theorem stripPref_none_iff : ∀ (p s : Str),
    stripPref p s = none ↔ startsWithStr p s = false := by
  intro p
  induction p with
  | nil => intro s; simp [stripPref, startsWithStr]
  | cons a ps ih =>
    intro s
    cases s with
    | nil => simp [stripPref, startsWithStr]
    | cons c cs =>
      simp only [stripPref, startsWithStr]
      by_cases hac : a = c
      · rw [if_pos hac]
        simp [hac, ih cs]
      · rw [if_neg hac]
        simp [hac]

theorem stripPref_none_of_include : ∀ (k : Str),
    startsWithStr includeFilesPref k = true → stripPref macrosPref k = none := by
  intro k h
  cases k with
  | nil => simp [includeFilesPref, startsWithStr] at h
  | cons c cs =>
    have hc : 'i' = c := by
      simp only [includeFilesPref, startsWithStr, Bool.and_eq_true,
        decide_eq_true_eq] at h
      exact h.1
    simp only [macrosPref, stripPref]
    rw [if_neg (fun hm => (by decide : ('m' : Char) ≠ 'i') (hm.trans hc.symm))]

theorem substituteAll_mem : ∀ (l mtable l' : List (Str × Str)),
    substituteAll mtable l = .ok l' →
    ∀ x ∈ l', ∃ v0, (x.1, v0) ∈ l ∧ replaceMacros x.1 mtable v0 = .ok x.2 := by
  intro l
  induction l with
  | nil =>
    intro mtable l' h x hx
    simp only [substituteAll] at h
    injection h with h'
    subst h'
    simp at hx
  | cons e rest ih =>
    intro mtable l' h x hx
    obtain ⟨k, v⟩ := e
    simp only [substituteAll] at h
    split at h
    · simp at h
    · rename_i v' hv
      split at h
      · simp at h
      · rename_i rest' hrest
        injection h with h'
        subst h'
        rcases List.mem_cons.mp hx with h1 | h2
        · subst h1
          exact ⟨v, List.mem_cons_self _ _, hv⟩
        · obtain ⟨v0, hmem, hrep⟩ := ih mtable rest' hrest x h2
          exact ⟨v0, List.mem_cons_of_mem _ hmem, hrep⟩

theorem foldIncludes_mem : ∀ (incl : List Str)
    (fs : Str → Option (List (Str × Str))) (mtable acc merged : List (Str × Str)),
    incl.foldlM (includeOne fs mtable) acc = .ok merged →
    ∀ x ∈ merged, x ∈ acc ∨ ∃ p es, fs p = some es ∧ x ∈ es := by
  intro incl
  induction incl with
  | nil =>
    intro fs mtable acc merged h x hx
    simp only [List.foldlM_nil] at h
    injection h with h'
    subst h'
    exact Or.inl hx
  | cons i is ih =>
    intro fs mtable acc merged h x hx
    rw [List.foldlM_cons] at h
    cases hstep : includeOne fs mtable acc i with
    | error e =>
      rw [hstep] at h
      simp only [bind, Except.bind] at h
      simp at h
    | ok acc' =>
      rw [hstep] at h
      simp only [bind, Except.bind] at h
      rcases ih fs mtable acc' merged h x hx with h1 | h2
      · unfold includeOne at hstep
        split at hstep
        · simp at hstep
        · rename_i rpath hrep
          split at hstep
          · simp at hstep
          · rename_i entries hfs
            injection hstep with h'
            subst h'
            rcases mem_parseInto entries acc x h1 with ha | hb
            · exact Or.inl ha
            · exact Or.inr ⟨rpath, entries, hfs, hb⟩
      · exact Or.inr h2

theorem insertSet_nodup (v : Str) (s : List Str) (h : s.Nodup) :
    (insertSet v s).Nodup := by
  unfold insertSet
  split
  · exact h
  · rename_i hv
    apply List.Nodup.append h (List.nodup_singleton v)
    intro y hy hy'
    rw [List.mem_singleton] at hy'
    subst hy'
    exact hv hy

theorem partitionStep_include (acc : Partitioned) (kv : Str × Str)
    (h : startsWithStr includeFilesPref kv.1 = true) :
    partitionStep acc kv = { acc with includes := insertSet kv.2 acc.includes } := by
  simp only [partitionStep, stripPref_none_of_include kv.1 h, h, if_true]

/-- C3 counterexample: the claimed invariant fails — when an included file
itself contains a `macros.`-prefixed key, that key is merged as a plain key
and survives into the returned `Config`: a main file whose only entry is
`include.files.a = f`, with file `f` containing `macros.x = 1`, yields a
`Config` whose key `macros.x` begins with `macros.`. -/
theorem init_included_directive_key_survives :
    Config.init [(includeFilesPref ++ ['a'], ['f'])]
        (fun p => if p = ['f'] then some [(macrosPref ++ ['x'], ['1'])] else none)
      = .ok ⟨[(macrosPref ++ ['x'], ['1'])]⟩
    ∧ startsWithStr macrosPref (macrosPref ++ ['x']) = true := by
  exact ⟨rfl, rfl⟩

/-- C3 amended: after a successful `Config::init`, no key *originating from
the main file's partition* begins with `macros.` or `include.files.`;
equivalently, whenever no included file contributes keys with those prefixes,
no key of the returned `Config` carries them.  (Keys with those prefixes
inside included files are merged as ordinary plain keys and may survive.) -/
theorem init_no_directive_prefix_of_clean_includes :
    ∀ (mainEntries : List (Str × Str)) (fs : Str → Option (List (Str × Str)))
      (cfg : Config),
      (∀ (p : Str) (es : List (Str × Str)), fs p = some es →
        ∀ x ∈ es, startsWithStr macrosPref x.1 = false ∧
          startsWithStr includeFilesPref x.1 = false) →
      Config.init mainEntries fs = .ok cfg →
      ∀ x ∈ cfg.keys, startsWithStr macrosPref x.1 = false ∧
        startsWithStr includeFilesPref x.1 = false := by
  intro mainEntries fs cfg hclean hinit x hx
  unfold Config.init at hinit
  split at hinit
  · simp at hinit
  · rename_i merged hm
    split at hinit
    · simp at hinit
    · rename_i finalKeys hs
      injection hinit with h'
      subst h'
      have hx' : x ∈ finalKeys := hx
      obtain ⟨v0, hmem, _⟩ := substituteAll_mem merged
        (initPartition mainEntries).macros finalKeys hs x hx'
      have hfold : (initPartition mainEntries).includes.foldlM
          (includeOne fs (initPartition mainEntries).macros)
          (initPartition mainEntries).keys = .ok merged := hm
      rcases foldIncludes_mem (initPartition mainEntries).includes fs
          (initPartition mainEntries).macros (initPartition mainEntries).keys
          merged hfold (x.1, v0) hmem with h1 | h2
      · -- the pair comes from the main file's partitioned plain keys
        have hkeys : ∀ (es : List (Str × Str)) (acc : Partitioned),
            (∀ y ∈ acc.keys, startsWithStr macrosPref y.1 = false ∧
              startsWithStr includeFilesPref y.1 = false) →
            ∀ y ∈ (es.foldl partitionStep acc).keys,
              startsWithStr macrosPref y.1 = false ∧
                startsWithStr includeFilesPref y.1 = false := by
          intro es
          induction es with
          | nil => intro acc hacc y hy; exact hacc y hy
          | cons e rest ih =>
            intro acc hacc y hy
            rw [List.foldl_cons] at hy
            refine ih (partitionStep acc e) ?_ y hy
            intro z hz
            unfold partitionStep at hz
            split at hz
            · exact hacc z hz
            · rename_i hstrip
              split at hz
              · exact hacc z hz
              · rename_i hinc
                rcases mem_insertKV acc.keys e.1 e.2 z hz with ha | hb
                · rw [ha]
                  exact ⟨(stripPref_none_iff macrosPref e.1).mp hstrip,
                    Bool.of_not_eq_true hinc⟩
                · exact hacc z hb
        have := hkeys (parseInto [] mainEntries)
          { keys := [], includes := [], macros := [] }
          (fun y hy => absurd hy (List.not_mem_nil y)) (x.1, v0) h1
        exact this
      · obtain ⟨p, es, hfs, hmem'⟩ := h2
        exact hclean p es hfs (x.1, v0) hmem'

theorem init_no_directive_prefix_witness :
    startsWithStr macrosPref (['a'] : Str) = false ∧
      startsWithStr includeFilesPref (['a'] : Str) = false :=
  init_no_directive_prefix_of_clean_includes [(['a'], ['1'])] (fun _ => none)
    ⟨[(['a'], ['1'])]⟩ (fun _ _ h => Option.noConfusion h) rfl
    (['a'], ['1']) (List.mem_cons_self _ _)

/-- C4: after a successful `Config::init`, every value in the returned map is
the output of a successful macro substitution (under its own key and the main
file's macro table) applied to the corresponding merged pre-substitution
value — no value retains an unprocessed macro reference; sentinel-looking
text inserted verbatim from a macro's replacement is the output of that same
successful substitution. -/
theorem init_values_fully_substituted :
    ∀ (mainEntries : List (Str × Str)) (fs : Str → Option (List (Str × Str)))
      (cfg : Config),
      Config.init mainEntries fs = .ok cfg →
      ∃ merged, initMerged mainEntries fs = .ok merged ∧
        ∀ x ∈ cfg.keys, ∃ v0, (x.1, v0) ∈ merged ∧
          replaceMacros x.1 (initPartition mainEntries).macros v0 = .ok x.2 := by
  intro mainEntries fs cfg hinit
  unfold Config.init at hinit
  split at hinit
  · simp at hinit
  · rename_i merged hm
    split at hinit
    · simp at hinit
    · rename_i finalKeys hs
      injection hinit with h'
      subst h'
      refine ⟨merged, hm, ?_⟩
      intro x hx
      exact substituteAll_mem merged (initPartition mainEntries).macros
        finalKeys hs x hx

theorem init_values_fully_substituted_witness :
    ∃ merged, initMerged [((['a'] : Str), (['1'] : Str))] (fun _ => none)
        = .ok merged ∧
      ∀ x ∈ (Config.mk [((['a'] : Str), (['1'] : Str))]).keys,
        ∃ v0, (x.1, v0) ∈ merged ∧
          replaceMacros x.1 (initPartition [(['a'], ['1'])]).macros v0
            = .ok x.2 :=
  init_values_fully_substituted [(['a'], ['1'])] (fun _ => none)
    ⟨[(['a'], ['1'])]⟩ rfl

/-- C7: merging is last-write-wins — whatever value a key has after parsing
an included file's entries into an empty map (the file's own last write for
that key), the same value is what the key maps to after those entries are
merged over any existing working set, overriding the main file's plain keys;
concretely, a main file with `a = 1` and an include of a file containing
`a = 2` yields a `Config` mapping `a` to `2`. -/
theorem merge_last_write_wins :
    (∀ (es base : List (Str × Str)) (k v : Str),
      lookupKV k (parseInto [] es) = some v →
      lookupKV k (parseInto base es) = some v)
    ∧ Config.init [(['a'], ['1']), (includeFilesPref ++ ['0'], ['f'])]
        (fun p => if p = ['f'] then some [(['a'], ['2'])] else none)
      = .ok ⟨[(['a'], ['2'])]⟩ := by
  constructor
  · intro es base k v h
    rw [lookupKV_parseInto es base k, h]
  · rfl

theorem merge_last_write_wins_witness :
    lookupKV ['a'] (parseInto [(['a'], ['1'])] [(['a'], ['2'])])
      = some ['2'] :=
  merge_last_write_wins.1 [(['a'], ['2'])] [(['a'], ['1'])] ['a'] ['2'] rfl

/-- C8: include directives have set semantics over values — the include set
built by the partition never holds duplicates (so the include loop processes
each distinct path exactly once), and a main file consisting of two
`include.files.*` entries with distinct keys but the identical path value
produces the singleton include set holding that path. -/
theorem includes_set_semantics :
    (∀ (entries : List (Str × Str)), (partitionConfig entries).includes.Nodup)
    ∧ (∀ (k1 k2 p : Str),
        startsWithStr includeFilesPref k1 = true →
        startsWithStr includeFilesPref k2 = true →
        k1 ≠ k2 →
        (initPartition [(k1, p), (k2, p)]).includes = [p]) := by
  constructor
  · intro entries
    have hstep : ∀ (es : List (Str × Str)) (acc : Partitioned),
        acc.includes.Nodup → (es.foldl partitionStep acc).includes.Nodup := by
      intro es
      induction es with
      | nil => intro acc h; exact h
      | cons e rest ih =>
        intro acc h
        rw [List.foldl_cons]
        refine ih (partitionStep acc e) ?_
        unfold partitionStep
        split
        · exact h
        · split
          · exact insertSet_nodup e.2 acc.includes h
          · exact h
    exact hstep entries { keys := [], includes := [], macros := [] }
      List.nodup_nil
  · intro k1 k2 p h1 h2 hne
    have e2 : parseInto [] [(k1, p), (k2, p)] = [(k1, p), (k2, p)] := by
      show insertKV k2 p (insertKV k1 p []) = _
      show insertKV k2 p [(k1, p)] = _
      unfold insertKV
      rw [if_neg (fun h0 => hne h0.symm)]
      rfl
    unfold initPartition
    rw [e2]
    unfold partitionConfig
    simp only [List.foldl_cons, List.foldl_nil]
    rw [partitionStep_include _ (k1, p) h1, partitionStep_include _ (k2, p) h2]
    simp [insertSet]

theorem includes_set_semantics_witness :
    (initPartition [(includeFilesPref ++ ['a'], ['f']),
        (includeFilesPref ++ ['b'], ['f'])]).includes = [['f']] :=
  includes_set_semantics.2 (includeFilesPref ++ ['a'])
    (includeFilesPref ++ ['b']) ['f'] (by decide) (by decide) (by decide)

theorem unitKeyLookup_constant_witness :
    unitKeyLookup.key () ['k'] = []
      ∧ unitKeyLookup.key_as_int () ['k'] = 0
      ∧ unitKeyLookup.key_as_ip () ['k'] = .v4 0 0 0 0 :=
  unitKeyLookup_constant ['k']
